import Mathlib

/-!
# Verification of the shodanX hostname-discovery engine

Shallow embedding of `src/shodanX.go`: the extractor (`extractFromMatch`),
the normalizer (`uniqueNormalized`), the paginated query runner
(`searchShodanPaginated`), the DNS-subdomain fetcher (`getDNSSubs`) and the
fan-out accumulation loop of `main`, together with theorems settling the
frozen claims about them.

Modelling conventions:
* Go's `interface{}` values decoded from JSON become the inductive `Json`
  below.  JSON numbers are never inspected by the program (only string,
  array and object type assertions occur), so their payload is modelled as
  an `Int`; booleans and null likewise only matter by their tag.
* A Go `map[string]interface{}` becomes an association list
  `List (String × Json)`; Go's JSON decoder produces maps with unique keys,
  under which first-match lookup agrees with map lookup.  Go's map
  iteration order is unspecified; the embedding iterates in list order,
  which is one admissible order (the claims proved below are
  order-insensitive: membership, emptiness, dot-filters).
* `strings.Contains(s, ".")` with a one-character needle equals
  containment of the character `'.'` in the string's characters,
  modelled by the computable `containsDot`.
* `strings.TrimSpace` trims by Go's `unicode.IsSpace`; `goIsSpace` below
  covers its Latin-1 table, which is faithful on the ASCII/Latin-1 inputs
  all claims range over.
* `strings.ToLower` is modelled by `Char.toLower` on each character
  (ASCII case-folding); the normalizer claims only use it as a dedup key.
* `sort.Strings` sorts byte-wise on UTF-8; UTF-8 byte order coincides with
  code-point lexicographic order, modelled by the computable relation
  `sLE` below, so the sort is modelled by `List.insertionSort sLE`.
-/

/-- A decoded JSON value, as produced by Go's `json.Unmarshal` into
`interface{}`. -/
inductive Json where
  | null : Json
  | bool (b : Bool) : Json
  | num (n : Int) : Json
  | str (s : String) : Json
  | arr (elems : List Json) : Json
  | obj (fields : List (String × Json)) : Json

/-- Field access `m["key"]` with the `, ok` idiom: `none` when the value is
not an object or the key is absent. -/
def Json.lookup : Json → String → Option Json
  | .obj fields, k => List.lookup k fields
  | _, _ => none

/-- Go's Latin-1 white-space table used by `strings.TrimSpace`
(`'\t'`, `'\n'`, `'\v'`, `'\f'`, `'\r'`, `' '`, U+0085, U+00A0). -/
def goIsSpace (c : Char) : Bool :=
  c = ' ' || c = '\t' || c = '\n' || c = '\u000b' || c = '\u000c' ||
    c = '\r' || c = '\u0085' || c = '\u00A0'

/-- `strings.Contains(s, ".")`: the needle is one character, so substring
containment is character containment. -/
def containsDot (s : String) : Bool :=
  s.data.contains '.'

/-- `strings.TrimSpace`: drop leading and trailing white space. -/
def goTrim (s : String) : String :=
  String.mk (List.rdropWhile goIsSpace (List.dropWhile goIsSpace s.data))

/-- `strings.ToLower` (ASCII case folding, see module conventions). -/
def goToLower (s : String) : String :=
  String.mk (s.data.map Char.toLower)

/-- Lexicographic comparison of character lists by code point.  Go's
`sort.Strings` compares strings byte-wise; on UTF-8 encodings byte order
coincides with code-point order, so this is the order `sort.Strings`
sorts by. -/
def goLeList : List Char → List Char → Bool
  | [], _ => true
  | _ :: _, [] => false
  | c :: cs, d :: ds =>
      if c < d then true
      else if d < c then false
      else goLeList cs ds

/-- `a <= b` in the string order used by `sort.Strings`. -/
def goLe (a b : String) : Bool :=
  goLeList a.data b.data

/-- The sort relation of `sort.Strings` as a proposition. -/
def sLE (a b : String) : Prop :=
  goLe a b = true

instance : DecidableRel sLE :=
  fun a b => inferInstanceAs (Decidable (goLe a b = true))

theorem goLeList_total : ∀ l1 l2 : List Char,
    goLeList l1 l2 = true ∨ goLeList l2 l1 = true := by
  intro l1
  induction l1 with
  | nil => intro l2; left; rfl
  | cons c cs ih =>
    intro l2
    cases l2 with
    | nil => right; rfl
    | cons d ds =>
      by_cases hcd : c < d
      · left; simp [goLeList, hcd]
      · by_cases hdc : d < c
        · right; simp [goLeList, hdc]
        · rcases ih ds with h | h
          · left; simp [goLeList, hcd, hdc, h]
          · right; simp [goLeList, hcd, hdc, h]

theorem goLeList_trans : ∀ l1 l2 l3 : List Char,
    goLeList l1 l2 = true → goLeList l2 l3 = true → goLeList l1 l3 = true := by
  intro l1
  induction l1 with
  | nil => intro l2 l3 _ _; rfl
  | cons c cs ih =>
    intro l2 l3 h1 h2
    cases l2 with
    | nil => simp [goLeList] at h1
    | cons d ds =>
      cases l3 with
      | nil => simp [goLeList] at h2
      | cons e es =>
        simp only [goLeList] at h1 h2 ⊢
        by_cases hcd : c < d
        · by_cases hde : d < e
          · simp [lt_trans hcd hde]
          · by_cases hed : e < d
            · simp [hde, hed] at h2
            · have hde' : d = e := le_antisymm (not_lt.mp hed) (not_lt.mp hde)
              simp [hde' ▸ hcd]
        · by_cases hdc : d < c
          · simp [hcd, hdc] at h1
          · have hcd' : c = d := le_antisymm (not_lt.mp hdc) (not_lt.mp hcd)
            by_cases hde : d < e
            · simp [hcd' ▸ hde]
            · by_cases hed : e < d
              · simp [hde, hed] at h2
              · have hde' : d = e := le_antisymm (not_lt.mp hed) (not_lt.mp hde)
                have hce : c = e := hcd'.trans hde'
                simp [hcd, hdc] at h1
                simp [hde, hed] at h2
                subst hce
                simp [hcd' ▸ hcd, lt_irrefl]
                exact ih ds es h1 h2

theorem goLeList_antisymm : ∀ l1 l2 : List Char,
    goLeList l1 l2 = true → goLeList l2 l1 = true → l1 = l2 := by
  intro l1
  induction l1 with
  | nil =>
    intro l2 _ h2
    cases l2 with
    | nil => rfl
    | cons d ds => simp [goLeList] at h2
  | cons c cs ih =>
    intro l2 h1 h2
    cases l2 with
    | nil => simp [goLeList] at h1
    | cons d ds =>
      simp only [goLeList] at h1 h2
      by_cases hcd : c < d
      · simp [hcd, lt_asymm hcd] at h2
      · by_cases hdc : d < c
        · simp [hcd, hdc] at h1
        · have hcd' : c = d := le_antisymm (not_lt.mp hdc) (not_lt.mp hcd)
          simp [hcd, hdc] at h1 h2
          rw [hcd', ih ds h1 h2]

theorem string_data_inj {a b : String} (h : a.data = b.data) : a = b := by
  cases a; cases b; exact congrArg String.mk h

instance : IsTotal String sLE :=
  ⟨fun a b => goLeList_total a.data b.data⟩

instance : IsTrans String sLE :=
  ⟨fun a b c => goLeList_trans a.data b.data c.data⟩

instance : IsAntisymm String sLE :=
  ⟨fun a b h1 h2 => string_data_inj (goLeList_antisymm a.data b.data h1 h2)⟩

/-- The `hostnames` block of `extractFromMatch` (shodanX.go:49-57): each
string element of the array that is non-empty is a candidate; no dot is
required here. -/
def hostVals : Json → List String
  | .arr hostnames =>
      hostnames.filterMap fun h =>
        match h with
        | .str s => if s = "" then none else some s
        | _ => none
  | _ => []

def fromHostnames (m : Json) : List String :=
  match m.lookup "hostnames" with
  | some v => hostVals v
  | none => []

/-- The `ssl.cert.subject` block (shodanX.go:65-74): every value of the
subject map that is a string containing a `.` is a candidate. -/
def subjectVals : Json → List String
  | .obj fields =>
      fields.filterMap fun kv =>
        match kv.2 with
        | .str s => if containsDot s then some s else none
        | _ => none
  | _ => []

def fromSubject (cert : Json) : List String :=
  match cert.lookup "subject" with
  | some v => subjectVals v
  | none => []

/-- One value of the `ssl.cert.extensions` map (shodanX.go:78-95): a list
of strings keeps its dot-containing elements; a single string is split on
commas, each part trimmed and kept if it contains a dot. -/
def extVal : Json → List String
  | .arr items =>
      items.filterMap fun it =>
        match it with
        | .str s => if containsDot s then some s else none
        | _ => none
  | .str t =>
      (t.splitOn ",").filterMap fun part =>
        if containsDot (goTrim part) then some (goTrim part) else none
  | _ => []

def extensionsVals : Json → List String
  | .obj fields => fields.flatMap fun kv => extVal kv.2
  | _ => []

def fromExtensions (cert : Json) : List String :=
  match cert.lookup "extensions" with
  | some v => extensionsVals v
  | none => []

/-- The `ssl.cert.subjectAltName` block (shodanX.go:99-107). -/
def sanVals : Json → List String
  | .arr sanList =>
      sanList.filterMap fun v =>
        match v with
        | .str s => if containsDot s then some s else none
        | _ => none
  | _ => []

def fromSAN (cert : Json) : List String :=
  match cert.lookup "subjectAltName" with
  | some v => sanVals v
  | none => []

/-- The `ssl` block (shodanX.go:59-111): subject, then extensions, then
subjectAltName, in source order. -/
def fromSsl (m : Json) : List String :=
  match m.lookup "ssl" with
  | some ssl =>
      match ssl.lookup "cert" with
      | some cert => fromSubject cert ++ fromExtensions cert ++ fromSAN cert
      | none => []
  | none => []

/-- The `http` block (shodanX.go:113-126): `title` then `host`, each kept
when it is a dot-containing string. -/
def fromHttp (m : Json) : List String :=
  match m.lookup "http" with
  | some h =>
      (match h.lookup "title" with
       | some (.str s) => if containsDot s then [s] else []
       | _ => []) ++
      (match h.lookup "host" with
       | some (.str s) => if containsDot s then [s] else []
       | _ => [])
  | none => []

/-- `extractFromMatch` (shodanX.go:46-129): hostnames, ssl certificate
fields, http metadata, concatenated in source order. -/
def extractFromMatch (m : Json) : List String :=
  fromHostnames m ++ fromSsl m ++ fromHttp m

/-- The accumulation loop of `uniqueNormalized` (shodanX.go:134-145):
`seen` is the set of lower-cased keys already emitted, `acc` the emitted
(trimmed, original-cased) strings in reverse order. -/
def uniqAux : List String → List String → List String → List String
  | [], _, acc => acc.reverse
  | s :: rest, seen, acc =>
      let t := goTrim s
      if t = "" then uniqAux rest seen acc
      else if seen.contains (goToLower t) then uniqAux rest seen acc
      else uniqAux rest (goToLower t :: seen) (t :: acc)

/-- `uniqueNormalized` (shodanX.go:131-148): trim, drop empties, dedup by
lower-cased key keeping the first occurrence, then `sort.Strings`. -/
def uniqueNormalized (items : List String) : List String :=
  List.insertionSort sLE (uniqAux items [] [])

/-! ### Reference decomposition of the normalizer

`uniqueNormalized` is proved equal to sorting `dedupByLower (normElems items)`:
`normElems` performs the trim/drop-empty pass, `dedupByLower` keeps the first
occurrence of each lower-cased key.  All structural facts about the
normalizer flow through this decomposition. -/

/-- Trimmed, non-empty elements in input order. -/
def normElems (items : List String) : List String :=
  (items.map goTrim).filter fun t => t ≠ ""

/-- Keep the first element with each lower-cased key. -/
def dedupByLower : List String → List String
  | [] => []
  | a :: rest =>
      a :: dedupByLower (rest.filter fun t => !(goToLower t == goToLower a))
termination_by l => l.length
decreasing_by
  exact Nat.lt_succ_of_le (List.length_filter_le _ _)

/-! ### The paginated query runner

One page request (`doGet` + status check + `json.Unmarshal`,
shodanX.go:156-171) has four outcomes, modelled by `PageResp`.  The rate
limiter tick `<-rps` only paces requests in time and does not affect the
values computed, so it has no counterpart here.  `httpErr` models a
response whose status is not 200; `parseErr` a 200 response whose body is
not valid JSON for `searchResult`.  A match of Shodan's `matches` array is
a `Json` record handed to `extractFromMatch`. -/

inductive PageResp where
  | transportErr (msg : String) : PageResp
  | httpErr (status : Nat) (bodyText : String) : PageResp
  | parseErr (msg : String) : PageResp
  | matches (ms : List Json) : PageResp

/-- The error returned by `searchShodanPaginated`, mirroring the three
`fmt.Errorf` sites (shodanX.go:158,166,170). -/
inductive SearchErr where
  | request (page : Nat) (msg : String) : SearchErr
  | status (code : Nat) (bodyText : String) : SearchErr
  | unmarshal (page : Nat) (msg : String) : SearchErr

/-- The page loop of `searchShodanPaginated` (shodanX.go:153-184).  Besides
the Go function's return values (candidates and error) the model also
returns the list of page numbers actually requested, so that claims about
which pages are fetched are statable.  `acc`/`req` are the loop state. -/
def searchAux (api : Nat → PageResp) (maxPages : Nat) :
    Nat → List String → List Nat → List String × Option SearchErr × List Nat
  | page, acc, req =>
    if _h : maxPages < page then (acc, none, req)
    else
      match api page with
      | .transportErr msg => (acc, some (.request page msg), req ++ [page])
      | .httpErr code body => (acc, some (.status code body), req ++ [page])
      | .parseErr msg => (acc, some (.unmarshal page msg), req ++ [page])
      | .matches ms =>
        if ms.length = 0 then (acc, none, req ++ [page])
        else
          if ms.length < 100 then
            (acc ++ ms.flatMap extractFromMatch, none, req ++ [page])
          else
            searchAux api maxPages (page + 1)
              (acc ++ ms.flatMap extractFromMatch) (req ++ [page])
termination_by page => maxPages + 1 - page
decreasing_by
  omega

/-- `searchShodanPaginated` (shodanX.go:150-186): pages start at 1. -/
def searchShodanPaginated (api : Nat → PageResp) (maxPages : Nat) :
    List String × Option SearchErr × List Nat :=
  searchAux api maxPages 1 [] []

/-- The candidates one page contributes when it returned matches. -/
def pageMatches (api : Nat → PageResp) (p : Nat) : List Json :=
  match api p with
  | .matches ms => ms
  | _ => []

/-- Candidates extracted from the `n` consecutive pages starting at `page`. -/
def pagesExtract (api : Nat → PageResp) (page n : Nat) : List String :=
  (List.range' page n).flatMap fun p => (pageMatches api p).flatMap extractFromMatch

/-! ### The DNS-subdomain fetcher -/

/-- Outcome of the single `doGet` + status check + `json.Unmarshal` of
`getDNSSubs` (shodanX.go:191-201); `ok` carries the decoded JSON body. -/
inductive DnsResp where
  | transportErr (msg : String) : DnsResp
  | httpErr (status : Nat) (bodyText : String) : DnsResp
  | parseErr (msg : String) : DnsResp
  | ok (raw : Json) : DnsResp

/-- The error returned by `getDNSSubs` (transport error passed through,
`fmt.Errorf` for a non-200 status, unmarshal error passed through). -/
inductive DnsErr where
  | transport (msg : String) : DnsErr
  | status (code : Nat) (bodyText : String) : DnsErr
  | parse (msg : String) : DnsErr

/-- `getDNSSubs` (shodanX.go:188-213): on success, each string element of
the `subdomains` array is composed as `label + "." + domain`; non-string
elements are skipped; a missing or non-array `subdomains` field yields the
empty list with no error. -/
def getDNSSubs (resp : DnsResp) (domain : String) : List String × Option DnsErr :=
  match resp with
  | .transportErr msg => ([], some (.transport msg))
  | .httpErr code body => ([], some (.status code body))
  | .parseErr msg => ([], some (.parse msg))
  | .ok raw =>
    match raw.lookup "subdomains" with
    | some (.arr subs) =>
      (subs.filterMap fun s =>
        match s with
        | .str label => some (label ++ "." ++ domain)
        | _ => none, none)
    | _ => ([], none)

/-! ### The fan-out orchestrator

`main` (shodanX.go:270-298) launches one goroutine per query; each either
appends its candidates to `allSubs` or records `(query, error)` in
`errorsFound`, both under the mutex; `wg.Wait()` joins them all before the
DNS fetch.  The model serialises this fan-out in query-list order: the
multiset of accumulated candidates and the set of recorded outcomes do not
depend on the interleaving, and order sensitivity of the final output is
exactly what claim C8 addresses.  A query's behaviour is abstracted as
`runQ : String → List String × Option SearchErr` (in the program,
`searchShodanPaginated` applied to the query). -/

def runQueries (runQ : String → List String × Option SearchErr)
    (queries : List String) : List String × List (String × SearchErr) :=
  queries.foldl
    (fun st q =>
      match (runQ q).2 with
      | some e => (st.1, st.2 ++ [(q, e)])
      | none => (st.1 ++ (runQ q).1, st.2))
    ([], [])

/-- The result-set accumulation of `main` (shodanX.go:270-298): candidates
of all successful queries, then the DNS fetcher's hostnames when the DNS
fetch succeeded (a DNS failure is reported and skipped, shodanX.go:292-298).
On a query's failure its partial candidates are discarded by the goroutine
(shodanX.go:278-283). -/
def collectAll (runQ : String → List String × Option SearchErr)
    (queries : List String) (dns : List String × Option DnsErr) : List String :=
  (runQueries runQ queries).1 ++
    (match dns.2 with
     | none => dns.1
     | some _ => [])

/-- `allSubs = uniqueNormalized(allSubs)` (shodanX.go:301): the normalized
hostname set the run emits. -/
def mainNormalized (runQ : String → List String × Option SearchErr)
    (queries : List String) (dns : List String × Option DnsErr) : List String :=
  uniqueNormalized (collectAll runQ queries dns)

theorem dedupByLower_nil : dedupByLower [] = [] := by
  rw [dedupByLower]

theorem dedupByLower_cons (a : String) (rest : List String) :
    dedupByLower (a :: rest) =
      a :: dedupByLower (rest.filter fun t => !(goToLower t == goToLower a)) := by
  rw [dedupByLower]

theorem normElems_cons (s : String) (rest : List String) :
    normElems (s :: rest) =
      if goTrim s = "" then normElems rest else goTrim s :: normElems rest := by
  by_cases h : goTrim s = "" <;> simp [normElems, h]

theorem uniqAux_cons_empty (s : String) (rest seen acc : List String)
    (h : goTrim s = "") :
    uniqAux (s :: rest) seen acc = uniqAux rest seen acc := by
  simp [uniqAux, h]

theorem uniqAux_cons_seen (s : String) (rest seen acc : List String)
    (h : goTrim s ≠ "") (h2 : seen.contains (goToLower (goTrim s)) = true) :
    uniqAux (s :: rest) seen acc = uniqAux rest seen acc := by
  have h2' : goToLower (goTrim s) ∈ seen := by simpa using h2
  simp [uniqAux, h, h2']

theorem uniqAux_cons_new (s : String) (rest seen acc : List String)
    (h : goTrim s ≠ "") (h2 : seen.contains (goToLower (goTrim s)) = false) :
    uniqAux (s :: rest) seen acc =
      uniqAux rest (goToLower (goTrim s) :: seen) (goTrim s :: acc) := by
  have h2' : goToLower (goTrim s) ∉ seen := by simpa using h2
  simp [uniqAux, h, h2']

theorem uniqAux_eq (items : List String) : ∀ (seen acc : List String),
    uniqAux items seen acc =
      acc.reverse ++
        dedupByLower ((normElems items).filter fun t => !seen.contains (goToLower t)) := by
  induction items with
  | nil =>
    intro seen acc
    simp [uniqAux, normElems, dedupByLower_nil]
  | cons s rest ih =>
    intro seen acc
    rw [normElems_cons]
    by_cases ht : goTrim s = ""
    · rw [if_pos ht, uniqAux_cons_empty s rest seen acc ht]
      exact ih seen acc
    · rw [if_neg ht, List.filter_cons]
      cases hseen : seen.contains (goToLower (goTrim s)) with
      | true =>
        rw [uniqAux_cons_seen s rest seen acc ht hseen]
        simp only [hseen, Bool.not_true, Bool.false_eq_true, if_false]
        exact ih seen acc
      | false =>
        rw [uniqAux_cons_new s rest seen acc ht hseen]
        simp only [hseen, Bool.not_false, if_true]
        rw [ih (goToLower (goTrim s) :: seen) (goTrim s :: acc),
          List.reverse_cons, List.append_assoc, dedupByLower_cons,
          List.filter_filter, List.singleton_append]
        have hpred : (fun t => !(goToLower (goTrim s) :: seen).contains (goToLower t))
            = fun a => !(goToLower a == goToLower (goTrim s)) &&
                !seen.contains (goToLower a) := by
          funext u
          simp [List.contains_cons, Bool.not_or, Bool.beq_eq_decide_eq]
        rw [hpred]

theorem uniqueNormalized_eq (items : List String) :
    uniqueNormalized items =
      List.insertionSort sLE (dedupByLower (normElems items)) := by
  rw [uniqueNormalized, uniqAux_eq items [] []]
  simp [List.filter_eq_self]

/-! ### Structural facts about trimming and deduplication -/

theorem goTrim_idempotent (s : String) : goTrim (goTrim s) = goTrim s := by
  have hdata : (goTrim s).data =
      List.rdropWhile goIsSpace (List.dropWhile goIsSpace s.data) := rfl
  rw [goTrim, hdata]
  set L := List.dropWhile goIsSpace s.data with hL
  have hdw : List.dropWhile goIsSpace L = L := List.dropWhile_idempotent _ _
  have hpre : List.rdropWhile goIsSpace L <+: L := List.rdropWhile_prefix _ _
  obtain ⟨t, ht⟩ := hpre
  have hdw' : List.dropWhile goIsSpace (List.rdropWhile goIsSpace L) =
      List.rdropWhile goIsSpace L := by
    cases hcase : List.rdropWhile goIsSpace L with
    | nil => simp
    | cons c cs =>
      have hcL : L = c :: (cs ++ t) := by
        rw [← ht, hcase, List.cons_append]
      have hc : goIsSpace c = false := by
        cases hc : goIsSpace c
        · rfl
        · exfalso
          rw [hcL, List.dropWhile_cons, hc, if_pos rfl] at hdw
          have hlen := congrArg List.length hdw
          rw [List.length_cons] at hlen
          have hle := (List.dropWhile_sublist goIsSpace (l := cs ++ t)).length_le
          omega
      rw [List.dropWhile_cons, hc]
      simp
  rw [hdw', List.rdropWhile_idempotent]
  rfl

theorem goTrim_data (s : String) :
    (goTrim s).data = List.rdropWhile goIsSpace (List.dropWhile goIsSpace s.data) :=
  rfl

theorem mem_normElems {items : List String} {s : String} (h : s ∈ normElems items) :
    goTrim s = s ∧ s ≠ "" ∧ ∃ t ∈ items, goTrim t = s := by
  rcases List.mem_filter.mp h with ⟨hmem, hne⟩
  rcases List.mem_map.mp hmem with ⟨t, ht, rfl⟩
  exact ⟨goTrim_idempotent t, by simpa using hne, t, ht, rfl⟩

theorem normElems_mem_of {items : List String} {t : String} (ht : t ∈ items)
    (hne : goTrim t ≠ "") : goTrim t ∈ normElems items :=
  List.mem_filter.mpr ⟨List.mem_map.mpr ⟨t, ht, rfl⟩, by simpa using hne⟩

theorem dedupByLower_subset : ∀ l : List String, dedupByLower l ⊆ l := by
  intro l
  induction l using dedupByLower.induct with
  | case1 => simp [dedupByLower_nil]
  | case2 a rest ih =>
    rw [dedupByLower_cons]
    intro s hs
    rcases List.mem_cons.mp hs with rfl | hs'
    · exact List.mem_cons_self _ _
    · exact List.mem_cons_of_mem _ (List.filter_subset' _ (ih hs'))

theorem pairwise_lower_dedupByLower (l : List String) :
    (dedupByLower l).Pairwise fun a b => goToLower a ≠ goToLower b := by
  induction l using dedupByLower.induct with
  | case1 => simp [dedupByLower_nil]
  | case2 a rest ih =>
    rw [dedupByLower_cons]
    refine List.Pairwise.cons ?_ ih
    intro b hb
    have hb' := dedupByLower_subset _ hb
    have hkeep := List.of_mem_filter hb'
    simp only [Bool.not_eq_true', beq_eq_false_iff_ne, ne_eq] at hkeep
    exact fun h => hkeep h.symm

theorem nodup_dedupByLower (l : List String) : (dedupByLower l).Nodup :=
  (pairwise_lower_dedupByLower l).imp fun h heq => h (congrArg goToLower heq)

theorem dedupByLower_eq_self {l : List String}
    (h : l.Pairwise fun a b => goToLower a ≠ goToLower b) : dedupByLower l = l := by
  induction l using dedupByLower.induct with
  | case1 => exact dedupByLower_nil
  | case2 a rest ih =>
    rw [dedupByLower_cons]
    rcases List.pairwise_cons.mp h with ⟨hhead, htail⟩
    have hall : ∀ b ∈ rest, (!(goToLower b == goToLower a)) = true := by
      intro b hb
      simpa using fun heq => hhead b hb heq.symm
    rw [List.filter_eq_self.mpr hall] at ih ⊢
    exact congrArg (a :: ·) (ih htail)

theorem dedupByLower_key_complete : ∀ l : List String, ∀ u ∈ l,
    ∃ s ∈ dedupByLower l, goToLower s = goToLower u := by
  intro l
  induction l using dedupByLower.induct with
  | case1 => intro u hu; simp at hu
  | case2 a rest ih =>
    intro u hu
    rw [dedupByLower_cons]
    rcases List.mem_cons.mp hu with rfl | hu'
    · exact ⟨u, List.mem_cons_self _ _, rfl⟩
    · by_cases hkey : goToLower u = goToLower a
      · exact ⟨a, List.mem_cons_self _ _, hkey.symm⟩
      · have hmem : u ∈ rest.filter fun t => !(goToLower t == goToLower a) :=
          List.mem_filter.mpr ⟨hu', by simpa using hkey⟩
        obtain ⟨s, hs, heq⟩ := ih u hmem
        exact ⟨s, List.mem_cons_of_mem _ hs, heq⟩

theorem mem_dedupByLower_of_unique : ∀ l : List String,
    (∀ a ∈ l, ∀ b ∈ l, goToLower a = goToLower b → a = b) →
    ∀ s ∈ l, s ∈ dedupByLower l := by
  intro l
  induction l using dedupByLower.induct with
  | case1 => intro _ s hs; simp at hs
  | case2 a rest ih =>
    intro huniq s hs
    rw [dedupByLower_cons]
    rcases List.mem_cons.mp hs with rfl | hs'
    · exact List.mem_cons_self _ _
    · by_cases hkey : goToLower s = goToLower a
      · have : s = a := huniq s hs a (List.mem_cons_self _ _) hkey
        exact this ▸ List.mem_cons_self _ _
      · have hmem : s ∈ rest.filter fun t => !(goToLower t == goToLower a) :=
          List.mem_filter.mpr ⟨hs', by simpa using hkey⟩
        refine List.mem_cons_of_mem _ (ih ?_ s hmem)
        intro x hx y hy
        exact huniq x (List.mem_cons_of_mem _ (List.filter_subset' _ hx))
          y (List.mem_cons_of_mem _ (List.filter_subset' _ hy))

theorem find?_filter_of_imp {p q : String → Bool}
    (h : ∀ u, p u = true → q u = true) :
    ∀ l : List String, (l.filter q).find? p = l.find? p := by
  intro l
  induction l with
  | nil => simp
  | cons a rest ih =>
    cases hq : q a
    · have hp : p a = false := by
        cases hp : p a
        · rfl
        · exact absurd (h a hp) (by simp [hq])
      rw [List.filter_cons_of_neg (by simp [hq]), ih,
        List.find?_cons_of_neg _ (by simp [hp])]
    · rw [List.filter_cons_of_pos (by simp [hq])]
      cases hp : p a
      · rw [List.find?_cons_of_neg _ (by simp [hp]),
          List.find?_cons_of_neg _ (by simp [hp]), ih]
      · rw [List.find?_cons_of_pos _ hp, List.find?_cons_of_pos _ hp]

theorem mem_dedupByLower_first : ∀ l : List String, ∀ s ∈ dedupByLower l,
    l.find? (fun t => goToLower t == goToLower s) = some s := by
  intro l
  induction l using dedupByLower.induct with
  | case1 => intro s hs; rw [dedupByLower_nil] at hs; simp at hs
  | case2 a rest ih =>
    intro s hs
    rw [dedupByLower_cons] at hs
    rcases List.mem_cons.mp hs with rfl | hs'
    · exact List.find?_cons_of_pos _ (by simp)
    · have hne : goToLower s ≠ goToLower a := by
        have hmem := dedupByLower_subset _ hs'
        have hkeep := List.of_mem_filter hmem
        simpa using hkeep
      rw [List.find?_cons_of_neg _ (by simpa using fun h => hne h.symm)]
      have himp : ∀ u, ((goToLower u == goToLower s) = true) →
          ((!(goToLower u == goToLower a)) = true) := by
        intro u hu
        have : goToLower u = goToLower s := by simpa using hu
        simp [this, hne]
      rw [← find?_filter_of_imp himp rest]
      exact ih s hs'

theorem mem_uniqueNormalized {items : List String} {s : String} :
    s ∈ uniqueNormalized items ↔ s ∈ dedupByLower (normElems items) := by
  rw [uniqueNormalized_eq]
  exact (List.perm_insertionSort _ _).mem_iff

theorem pairwise_lower_uniqueNormalized (items : List String) :
    (uniqueNormalized items).Pairwise fun a b => goToLower a ≠ goToLower b := by
  rw [uniqueNormalized_eq]
  refine ((List.perm_insertionSort _ _).pairwise_iff ?_).mpr
    (pairwise_lower_dedupByLower _)
  intro a b h he
  exact h he.symm

theorem sorted_uniqueNormalized (items : List String) :
    (uniqueNormalized items).Sorted sLE := by
  rw [uniqueNormalized_eq]
  exact List.sorted_insertionSort _ _

/-! ### Unfolding lemmas for the page loop -/

theorem searchAux_stop (api : Nat → PageResp) (maxPages page : Nat)
    (acc : List String) (req : List Nat) (h : maxPages < page) :
    searchAux api maxPages page acc req = (acc, none, req) := by
  rw [searchAux, dif_pos h]

theorem searchAux_transport (api : Nat → PageResp) (maxPages page : Nat)
    (acc : List String) (req : List Nat) (msg : String)
    (h : page ≤ maxPages) (ha : api page = .transportErr msg) :
    searchAux api maxPages page acc req =
      (acc, some (.request page msg), req ++ [page]) := by
  rw [searchAux, dif_neg (Nat.not_lt.mpr h), ha]

theorem searchAux_http (api : Nat → PageResp) (maxPages page : Nat)
    (acc : List String) (req : List Nat) (code : Nat) (body : String)
    (h : page ≤ maxPages) (ha : api page = .httpErr code body) :
    searchAux api maxPages page acc req =
      (acc, some (.status code body), req ++ [page]) := by
  rw [searchAux, dif_neg (Nat.not_lt.mpr h), ha]

theorem searchAux_parse (api : Nat → PageResp) (maxPages page : Nat)
    (acc : List String) (req : List Nat) (msg : String)
    (h : page ≤ maxPages) (ha : api page = .parseErr msg) :
    searchAux api maxPages page acc req =
      (acc, some (.unmarshal page msg), req ++ [page]) := by
  rw [searchAux, dif_neg (Nat.not_lt.mpr h), ha]

theorem searchAux_empty (api : Nat → PageResp) (maxPages page : Nat)
    (acc : List String) (req : List Nat)
    (h : page ≤ maxPages) (ha : api page = .matches []) :
    searchAux api maxPages page acc req = (acc, none, req ++ [page]) := by
  rw [searchAux, dif_neg (Nat.not_lt.mpr h), ha]
  rfl

theorem searchAux_short (api : Nat → PageResp) (maxPages page : Nat)
    (acc : List String) (req : List Nat) (ms : List Json)
    (h : page ≤ maxPages) (ha : api page = .matches ms)
    (h0 : ms.length ≠ 0) (hlt : ms.length < 100) :
    searchAux api maxPages page acc req =
      (acc ++ ms.flatMap extractFromMatch, none, req ++ [page]) := by
  rw [searchAux, dif_neg (Nat.not_lt.mpr h), ha]
  simp only [if_neg h0, if_pos hlt]

theorem searchAux_full (api : Nat → PageResp) (maxPages page : Nat)
    (acc : List String) (req : List Nat) (ms : List Json)
    (h : page ≤ maxPages) (ha : api page = .matches ms) (hge : 100 ≤ ms.length) :
    searchAux api maxPages page acc req =
      searchAux api maxPages (page + 1)
        (acc ++ ms.flatMap extractFromMatch) (req ++ [page]) := by
  rw [searchAux, dif_neg (Nat.not_lt.mpr h), ha]
  have h0 : ¬ms.length = 0 := by omega
  have h1 : ¬ms.length < 100 := by omega
  simp only [if_neg h0, if_neg h1]

theorem pagesExtract_succ (api : Nat → PageResp) (page k : Nat) (ms : List Json)
    (hms : api page = .matches ms) :
    pagesExtract api page (k + 1) =
      ms.flatMap extractFromMatch ++ pagesExtract api (page + 1) k := by
  rw [pagesExtract, List.range'_succ, List.flatMap_cons]
  congr 1
  rw [pageMatches, hms]

/-- Running the loop across `k` consecutive full pages. -/
theorem searchAux_run_full (api : Nat → PageResp) (maxPages : Nat) :
    ∀ (k page : Nat) (acc : List String) (req : List Nat),
      page + k ≤ maxPages + 1 →
      (∀ p, page ≤ p → p < page + k → ∃ ms, api p = .matches ms ∧ ms.length = 100) →
      searchAux api maxPages page acc req =
        searchAux api maxPages (page + k)
          (acc ++ pagesExtract api page k) (req ++ List.range' page k) := by
  intro k
  induction k with
  | zero =>
    intro page acc req _ _
    simp [pagesExtract]
  | succ k ih =>
    intro page acc req hle hfull
    obtain ⟨ms, hms, hlen⟩ := hfull page (Nat.le_refl _) (by omega)
    rw [searchAux_full api maxPages page acc req ms (by omega) hms (by omega)]
    rw [ih (page + 1) _ _ (by omega)
      (fun p hp1 hp2 => hfull p (by omega) (by omega))]
    have harith : page + 1 + k = page + (k + 1) := by omega
    rw [harith]
    congr 1
    · rw [List.append_assoc, pagesExtract_succ api page k ms hms]
    · rw [List.append_assoc, List.range'_succ]
      rfl

/-- After `n - 1` full pages the loop stands at page `n` with the prefix
candidates accumulated and pages `1..n-1` requested. -/
theorem search_reach (api : Nat → PageResp) (maxPages n : Nat)
    (h1 : 1 ≤ n) (h2 : n ≤ maxPages)
    (hfull : ∀ p, 1 ≤ p → p < n → ∃ ms, api p = .matches ms ∧ ms.length = 100) :
    searchShodanPaginated api maxPages =
      searchAux api maxPages n
        (pagesExtract api 1 (n - 1)) (List.range' 1 (n - 1)) := by
  rw [searchShodanPaginated]
  rw [searchAux_run_full api maxPages (n - 1) 1 [] [] (by omega)
    (fun p hp1 hp2 => hfull p hp1 (by omega))]
  have harith : 1 + (n - 1) = n := by omega
  rw [harith]
  simp

theorem range'_one_append_last (n : Nat) (h : 1 ≤ n) :
    List.range' 1 (n - 1) ++ [n] = List.range' 1 n := by
  have h2 : n = n - 1 + 1 := by omega
  conv_rhs => rw [h2]
  rw [List.range'_concat]
  have harith : 1 + 1 * (n - 1) = n := by omega
  rw [harith]

/-! ### The fan-out accumulation -/

theorem runQueries_eq (runQ : String → List String × Option SearchErr)
    (queries : List String) :
    runQueries runQ queries =
      ((queries.filter fun q => ((runQ q).2).isNone).flatMap fun q => (runQ q).1,
       queries.filterMap fun q => ((runQ q).2).map fun e => (q, e)) := by
  have key : ∀ (qs : List String) (s0 : List String)
      (e0 : List (String × SearchErr)),
      qs.foldl
        (fun st q =>
          match (runQ q).2 with
          | some e => (st.1, st.2 ++ [(q, e)])
          | none => (st.1 ++ (runQ q).1, st.2)) (s0, e0) =
      (s0 ++ (qs.filter fun q => ((runQ q).2).isNone).flatMap fun q => (runQ q).1,
       e0 ++ qs.filterMap fun q => ((runQ q).2).map fun e => (q, e)) := by
    intro qs
    induction qs with
    | nil => intro s0 e0; simp
    | cons q rest ih =>
      intro s0 e0
      rw [List.foldl_cons]
      cases hq : (runQ q).2 with
      | none =>
        simp only [hq]
        rw [ih]
        rw [List.filter_cons, List.filterMap_cons]
        simp [hq]
      | some e =>
        simp only [hq]
        rw [ih]
        rw [List.filter_cons, List.filterMap_cons]
        simp [hq]
  rw [runQueries, key]
  simp

/-! ### Dot-filter helpers for the extractor -/

theorem dotFilter_mem_json {l : List Json} {s : String}
    (hs : s ∈ l.filterMap fun it =>
      match it with
      | Json.str t => if containsDot t then some t else none
      | _ => none) : containsDot s = true := by
  obtain ⟨it, _, hf⟩ := List.mem_filterMap.mp hs
  split at hf
  · rename_i t heq
    by_cases hc : containsDot t
    · rw [if_pos hc] at hf
      cases hf
      exact hc
    · rw [if_neg hc] at hf
      cases hf
  · cases hf

theorem dotFilter_mem_pair {l : List (String × Json)} {s : String}
    (hs : s ∈ l.filterMap fun kv =>
      match kv.2 with
      | Json.str t => if containsDot t then some t else none
      | _ => none) : containsDot s = true := by
  obtain ⟨kv, _, hf⟩ := List.mem_filterMap.mp hs
  split at hf
  · rename_i t heq
    by_cases hc : containsDot t
    · rw [if_pos hc] at hf
      cases hf
      exact hc
    · rw [if_neg hc] at hf
      cases hf
  · cases hf

theorem subjectVals_dot {v : Json} {s : String} (hs : s ∈ subjectVals v) :
    containsDot s = true := by
  cases v with
  | obj fields =>
    rw [subjectVals] at hs
    exact dotFilter_mem_pair hs
  | null => simp [subjectVals] at hs
  | bool b => simp [subjectVals] at hs
  | num n => simp [subjectVals] at hs
  | str t => simp [subjectVals] at hs
  | arr xs => simp [subjectVals] at hs

theorem sanVals_dot {v : Json} {s : String} (hs : s ∈ sanVals v) :
    containsDot s = true := by
  cases v with
  | arr xs =>
    rw [sanVals] at hs
    exact dotFilter_mem_json hs
  | null => simp [sanVals] at hs
  | bool b => simp [sanVals] at hs
  | num n => simp [sanVals] at hs
  | str t => simp [sanVals] at hs
  | obj fields => simp [sanVals] at hs

theorem extVal_dot {v : Json} {s : String} (hs : s ∈ extVal v) :
    containsDot s = true := by
  cases v with
  | arr xs =>
    rw [extVal] at hs
    exact dotFilter_mem_json hs
  | str t =>
    rw [extVal] at hs
    obtain ⟨part, _, hf⟩ := List.mem_filterMap.mp hs
    by_cases hc : containsDot (goTrim part)
    · rw [if_pos hc] at hf
      cases hf
      exact hc
    · rw [if_neg hc] at hf
      cases hf
  | null => simp [extVal] at hs
  | bool b => simp [extVal] at hs
  | num n => simp [extVal] at hs
  | obj fields => simp [extVal] at hs

theorem extensionsVals_dot {v : Json} {s : String} (hs : s ∈ extensionsVals v) :
    containsDot s = true := by
  cases v with
  | obj fields =>
    rw [extensionsVals] at hs
    obtain ⟨kv, _, hmem⟩ := List.mem_flatMap.mp hs
    exact extVal_dot hmem
  | null => simp [extensionsVals] at hs
  | bool b => simp [extensionsVals] at hs
  | num n => simp [extensionsVals] at hs
  | str t => simp [extensionsVals] at hs
  | arr xs => simp [extensionsVals] at hs

theorem fromSubject_dot {cert : Json} {s : String} (hs : s ∈ fromSubject cert) :
    containsDot s = true := by
  rw [fromSubject] at hs
  split at hs
  · exact subjectVals_dot hs
  · cases hs

theorem fromExtensions_dot {cert : Json} {s : String}
    (hs : s ∈ fromExtensions cert) : containsDot s = true := by
  rw [fromExtensions] at hs
  split at hs
  · exact extensionsVals_dot hs
  · cases hs

theorem fromSAN_dot {cert : Json} {s : String} (hs : s ∈ fromSAN cert) :
    containsDot s = true := by
  rw [fromSAN] at hs
  split at hs
  · exact sanVals_dot hs
  · cases hs

theorem fromHttp_dot {m : Json} {s : String} (hs : s ∈ fromHttp m) :
    containsDot s = true := by
  rw [fromHttp] at hs
  split at hs
  · rcases List.mem_append.mp hs with h1 | h1 <;>
    · split at h1
      · rename_i t heq
        by_cases hc : containsDot t
        · rw [if_pos hc] at h1
          rw [List.mem_singleton.mp h1]
          exact hc
        · rw [if_neg hc] at h1
          cases h1
      · cases h1
  · cases hs

theorem hostVals_mem_iff {xs : List Json} {s : String} :
    s ∈ hostVals (Json.arr xs) ↔ Json.str s ∈ xs ∧ s ≠ "" := by
  rw [hostVals]
  constructor
  · intro hs
    obtain ⟨it, hmem, hf⟩ := List.mem_filterMap.mp hs
    split at hf
    · rename_i t
      by_cases he : t = ""
      · rw [if_pos he] at hf
        cases hf
      · rw [if_neg he] at hf
        cases hf
        exact ⟨hmem, he⟩
    · cases hf
  · rintro ⟨hmem, hne⟩
    exact List.mem_filterMap.mpr ⟨Json.str s, hmem, by simp [hne]⟩

theorem subjectVals_mem_iff {fields : List (String × Json)} {s : String} :
    s ∈ subjectVals (Json.obj fields) ↔
      (∃ k, (k, Json.str s) ∈ fields) ∧ containsDot s = true := by
  rw [subjectVals]
  constructor
  · intro hs
    obtain ⟨kv, hmem, hf⟩ := List.mem_filterMap.mp hs
    split at hf
    · rename_i t heq
      by_cases hc : containsDot t
      · rw [if_pos hc] at hf
        cases hf
        refine ⟨⟨kv.1, ?_⟩, hc⟩
        rw [← heq]
        simpa using hmem
      · rw [if_neg hc] at hf
        cases hf
    · cases hf
  · rintro ⟨⟨k, hk⟩, hc⟩
    refine List.mem_filterMap.mpr ⟨(k, Json.str s), hk, ?_⟩
    simp [hc]

/-! ## The claims -/

/-- C1: the extractor is total: for every well-formed JSON record — any
key-value tree, including the empty object, missing keys and wrong types at
any nesting level of hostnames, ssl, ssl.cert, ssl.cert.subject,
ssl.cert.extensions, ssl.cert.subjectAltName, http, http.title, http.host —
`extractFromMatch` returns a (possibly empty) list of strings (it is a
total function into `List String`), and a missing or wrongly-typed field
contributes zero candidates. -/
theorem extractFromMatch_total :
    (∀ m : Json, ∃ out : List String, extractFromMatch m = out) ∧
    (∀ m : Json, m.lookup "hostnames" = none → fromHostnames m = []) ∧
    (∀ m v, m.lookup "hostnames" = some v → (∀ xs, v ≠ Json.arr xs) →
      fromHostnames m = []) ∧
    (∀ m xs, m.lookup "hostnames" = some (Json.arr xs) →
      (∀ x ∈ xs, ∀ s, x ≠ Json.str s) → fromHostnames m = []) ∧
    (∀ m : Json, m.lookup "ssl" = none → fromSsl m = []) ∧
    (∀ m ssl, m.lookup "ssl" = some ssl → ssl.lookup "cert" = none →
      fromSsl m = []) ∧
    (∀ cert v, cert.lookup "subject" = some v → (∀ fs, v ≠ Json.obj fs) →
      fromSubject cert = []) ∧
    (∀ cert v, cert.lookup "extensions" = some v → (∀ fs, v ≠ Json.obj fs) →
      fromExtensions cert = []) ∧
    (∀ cert v, cert.lookup "subjectAltName" = some v → (∀ xs, v ≠ Json.arr xs) →
      fromSAN cert = []) ∧
    (∀ m : Json, m.lookup "http" = none → fromHttp m = []) ∧
    extractFromMatch (Json.obj []) = [] := by
  refine ⟨fun m => ⟨_, rfl⟩, ?_, ?_, ?_, ?_, ?_, ?_, ?_, ?_, ?_, rfl⟩
  · intro m h
    rw [fromHostnames, h]
  · intro m v h hv
    rw [fromHostnames, h]
    cases v with
    | arr xs => exact absurd rfl (hv xs)
    | null => rfl
    | bool b => rfl
    | num n => rfl
    | str t => rfl
    | obj fs => rfl
  · intro m xs h hstr
    rw [fromHostnames, h]
    simp only [hostVals]
    rw [List.filterMap_eq_nil_iff]
    intro x hx
    cases hcase : x with
    | str t => exact absurd hcase (hstr x hx t)
    | null => rfl
    | bool b => rfl
    | num n => rfl
    | arr ys => rfl
    | obj fs => rfl
  · intro m h
    rw [fromSsl, h]
  · intro m ssl h1 h2
    simp only [fromSsl, h1, h2]
  · intro cert v h hv
    rw [fromSubject, h]
    cases v with
    | obj fs => exact absurd rfl (hv fs)
    | null => rfl
    | bool b => rfl
    | num n => rfl
    | str t => rfl
    | arr xs => rfl
  · intro cert v h hv
    rw [fromExtensions, h]
    cases v with
    | obj fs => exact absurd rfl (hv fs)
    | null => rfl
    | bool b => rfl
    | num n => rfl
    | str t => rfl
    | arr xs => rfl
  · intro cert v h hv
    rw [fromSAN, h]
    cases v with
    | arr xs => exact absurd rfl (hv xs)
    | null => rfl
    | bool b => rfl
    | num n => rfl
    | str t => rfl
    | obj fs => rfl
  · intro m h
    rw [fromHttp, h]

/-- Witness for C1 at concrete malformed records: a numeric `hostnames`
field, a `ssl` object without `cert`, a numeric `subject`, and an array of
non-string hostnames all contribute zero candidates. -/
theorem extractFromMatch_total_witness :
    fromHostnames (Json.obj [("hostnames", Json.num 3)]) = [] ∧
    fromSsl (Json.obj [("ssl", Json.obj [("x", Json.null)])]) = [] ∧
    fromSubject (Json.obj [("subject", Json.str "oops")]) = [] ∧
    fromHostnames (Json.obj [("hostnames", Json.arr [Json.num 1, Json.null])]) = [] :=
  ⟨extractFromMatch_total.2.2.1 _ (Json.num 3) rfl (fun xs h => Json.noConfusion h),
   extractFromMatch_total.2.2.2.2.2.1 _ (Json.obj [("x", Json.null)]) rfl rfl,
   extractFromMatch_total.2.2.2.2.2.2.1 _ (Json.str "oops") rfl
     (fun fs h => Json.noConfusion h),
   extractFromMatch_total.2.2.2.1 _ [Json.num 1, Json.null] rfl
     (by
       intro x hx s
       rcases List.mem_cons.mp hx with rfl | hx2
       · exact fun h2 => Json.noConfusion h2
       · rcases List.mem_cons.mp hx2 with rfl | hx3
         · exact fun h2 => Json.noConfusion h2
         · cases hx3)⟩

/-- C7: extraction recall: a record with `hostnames: ["a.example.com"]`
yields `"a.example.com"`; a certificate subject map
`{CN: "b.example.com", O: "NoDotHere"}` yields `"b.example.com"` and not
`"NoDotHere"`; and in general a subject value is a candidate exactly when
it is a string containing a dot. -/
theorem extractFromMatch_recall :
    extractFromMatch
        (Json.obj [("hostnames", Json.arr [Json.str "a.example.com"])]) =
      ["a.example.com"] ∧
    "b.example.com" ∈ extractFromMatch
      (Json.obj [("ssl", Json.obj [("cert", Json.obj [("subject",
        Json.obj [("CN", Json.str "b.example.com"),
                  ("O", Json.str "NoDotHere")])])])]) ∧
    "NoDotHere" ∉ extractFromMatch
      (Json.obj [("ssl", Json.obj [("cert", Json.obj [("subject",
        Json.obj [("CN", Json.str "b.example.com"),
                  ("O", Json.str "NoDotHere")])])])]) ∧
    (∀ (fields : List (String × Json)) (s : String),
      s ∈ subjectVals (Json.obj fields) ↔
        (∃ k, (k, Json.str s) ∈ fields) ∧ containsDot s = true) := by
  refine ⟨by decide, by decide, by decide, ?_⟩
  intro fields s
  exact subjectVals_mem_iff

/-- Witness for C7's general conjunct at a concrete subject map. -/
theorem extractFromMatch_recall_witness :
    "b.example.com" ∈ subjectVals
      (Json.obj [("CN", Json.str "b.example.com"), ("O", Json.str "NoDotHere")]) :=
  (extractFromMatch_recall.2.2.2 _ "b.example.com").mpr
    ⟨⟨"CN", List.mem_cons_self _ _⟩, by decide⟩

/-- C10: dot-filter asymmetry: an element of the `hostnames` array is a
candidate iff it is a non-empty string — no dot required, so `"localhost"`
is emitted and `""` never is — while strings from the certificate subject,
extensions, subjectAltName and the http title/host fields are candidates
only when they contain a dot. -/
theorem extract_dot_asymmetry :
    (∀ (xs : List Json) (s : String),
      s ∈ hostVals (Json.arr xs) ↔ Json.str s ∈ xs ∧ s ≠ "") ∧
    "localhost" ∈ extractFromMatch
      (Json.obj [("hostnames", Json.arr [Json.str "localhost"])]) ∧
    "" ∉ extractFromMatch
      (Json.obj [("hostnames", Json.arr [Json.str ""])]) ∧
    (∀ cert s, s ∈ fromSubject cert → containsDot s = true) ∧
    (∀ cert s, s ∈ fromExtensions cert → containsDot s = true) ∧
    (∀ cert s, s ∈ fromSAN cert → containsDot s = true) ∧
    (∀ m s, s ∈ fromHttp m → containsDot s = true) := by
  refine ⟨fun xs s => hostVals_mem_iff, by decide, by decide,
    fun cert s hs => fromSubject_dot hs, fun cert s hs => fromExtensions_dot hs,
    fun cert s hs => fromSAN_dot hs, fun m s hs => fromHttp_dot hs⟩

/-- Witness for C10: the dotless `"localhost"` passes the hostnames filter,
and a subject candidate at a concrete record carries a dot. -/
theorem extract_dot_asymmetry_witness :
    (Json.str "localhost" ∈ [Json.str "localhost"] ∧ "localhost" ≠ "") ∧
    containsDot "b.example.com" = true :=
  ⟨(extract_dot_asymmetry.1 [Json.str "localhost"] "localhost").mp (by decide),
   extract_dot_asymmetry.2.2.2.1
     (Json.obj [("subject", Json.obj [("CN", Json.str "b.example.com")])])
     "b.example.com" (by decide)⟩

/-- Counterexample to C2 as stated: the output of `uniqueNormalized` is
`sort.Strings`-sorted on the retained original-casing strings, not on
their lower-cased forms: for input `["B.com", "a.com"]` the output is
`["B.com", "a.com"]` (since `"B" < "a"` byte-wise), whose lower-cased
sequence `["b.com", "a.com"]` is not sorted. -/
theorem uniqueNormalized_sortkey_cex :
    uniqueNormalized ["B.com", "a.com"] = ["B.com", "a.com"] ∧
    ¬ ((uniqueNormalized ["B.com", "a.com"]).map goToLower).Sorted sLE := by
  constructor
  · decide
  · intro h
    have hmap : (uniqueNormalized ["B.com", "a.com"]).map goToLower =
        ["b.com", "a.com"] := by decide
    rw [hmap] at h
    have h2 : sLE "b.com" "a.com" :=
      List.rel_of_sorted_cons h _ (List.mem_singleton.mpr rfl)
    exact absurd h2 (by decide)

/-- C2 (amended): `uniqueNormalized` trims each element, drops elements
that are empty after trimming, deduplicates on the lower-cased key keeping
the casing of the first occurrence, and sorts the result lexicographically
by the retained original-casing string (the order of `sort.Strings`), not
by the lower-cased form; `uniqueNormalized ["A.com", "a.com", "b.com"] =
["A.com", "b.com"]`. -/
theorem uniqueNormalized_correct :
    uniqueNormalized ["A.com", "a.com", "b.com"] = ["A.com", "b.com"] ∧
    ∀ items : List String,
      (uniqueNormalized items).Sorted sLE ∧
      (∀ s ∈ uniqueNormalized items,
        goTrim s = s ∧ s ≠ "" ∧ ∃ t ∈ items, goTrim t = s) ∧
      ((uniqueNormalized items).map goToLower).Nodup ∧
      (∀ t ∈ items, goTrim t ≠ "" →
        ∃ s ∈ uniqueNormalized items, goToLower s = goToLower (goTrim t)) ∧
      (∀ s ∈ uniqueNormalized items,
        (normElems items).find? (fun t => goToLower t == goToLower s) = some s) := by
  refine ⟨by decide, fun items =>
    ⟨sorted_uniqueNormalized items, ?_, ?_, ?_, ?_⟩⟩
  · intro s hs
    exact mem_normElems (dedupByLower_subset _ (mem_uniqueNormalized.mp hs))
  · have hp := pairwise_lower_uniqueNormalized items
    rw [List.Nodup, List.pairwise_map]
    exact hp
  · intro t ht htt
    obtain ⟨s, hs, heq⟩ :=
      dedupByLower_key_complete _ _ (normElems_mem_of ht htt)
    exact ⟨s, mem_uniqueNormalized.mpr hs, heq⟩
  · intro s hs
    exact mem_dedupByLower_first _ _ (mem_uniqueNormalized.mp hs)

/-- Witness for C2's amended theorem at a concrete input. -/
theorem uniqueNormalized_correct_witness :
    goTrim "A.com" = "A.com" ∧ "A.com" ≠ "" ∧
      ∃ t ∈ ["A.com", "a.com"], goTrim t = "A.com" :=
  (uniqueNormalized_correct.2 ["A.com", "a.com"]).2.1 "A.com" (by decide)

/-- C6: normalization is idempotent:
`uniqueNormalized (uniqueNormalized x) = uniqueNormalized x`. -/
theorem uniqueNormalized_idempotent (items : List String) :
    uniqueNormalized (uniqueNormalized items) = uniqueNormalized items := by
  have hmem : ∀ s ∈ uniqueNormalized items, goTrim s = s ∧ s ≠ "" := by
    intro s hs
    have h := mem_normElems (dedupByLower_subset _ (mem_uniqueNormalized.mp hs))
    exact ⟨h.1, h.2.1⟩
  have hmap : (uniqueNormalized items).map goTrim = uniqueNormalized items := by
    conv_rhs => rw [← List.map_id (uniqueNormalized items)]
    exact List.map_congr_left fun a ha => (hmem a ha).1
  have hnorm : normElems (uniqueNormalized items) = uniqueNormalized items := by
    rw [normElems, hmap]
    exact List.filter_eq_self.mpr fun a ha => by simpa using (hmem a ha).2
  rw [uniqueNormalized_eq (uniqueNormalized items), hnorm,
    dedupByLower_eq_self (pairwise_lower_uniqueNormalized items),
    (sorted_uniqueNormalized items).insertionSort_eq]

/-- Counterexample to C8 as stated: two permutations of the same candidate
multiset can normalize to different sequences when the same key occurs with
different casings — the kept representative is the first occurrence, which
depends on accumulation order: `["A.com", "a.com"]` normalizes to
`["A.com"]` but its permutation `["a.com", "A.com"]` to `["a.com"]`. -/
theorem uniqueNormalized_order_cex :
    List.Perm ["A.com", "a.com"] ["a.com", "A.com"] ∧
    uniqueNormalized ["a.com", "A.com"] ≠ uniqueNormalized ["A.com", "a.com"] :=
  ⟨List.Perm.swap "a.com" "A.com" [], by decide⟩

/-- C8 (amended): the normalized output is invariant under permutation of
the collected candidates provided no key occurs in two different casings:
if any two elements of `x` with the same lower-cased trimmed form have
equal trimmed forms, then every permutation of `x` normalizes to the
identical sequence. -/
theorem uniqueNormalized_perm_invariant (x y : List String) (hperm : x.Perm y)
    (huniq : ∀ a ∈ x, ∀ b ∈ x,
      goToLower (goTrim a) = goToLower (goTrim b) → goTrim a = goTrim b) :
    uniqueNormalized y = uniqueNormalized x := by
  have hux : ∀ u ∈ normElems x, ∀ v ∈ normElems x,
      goToLower u = goToLower v → u = v := by
    intro u hu v hv heq
    obtain ⟨-, -, a, ha, rfl⟩ := mem_normElems hu
    obtain ⟨-, -, b, hb, rfl⟩ := mem_normElems hv
    exact huniq a ha b hb heq
  have hpermN : (normElems x).Perm (normElems y) := by
    rw [normElems, normElems]
    exact (hperm.map goTrim).filter _
  have huy : ∀ u ∈ normElems y, ∀ v ∈ normElems y,
      goToLower u = goToLower v → u = v := fun u hu v hv =>
    hux u (hpermN.mem_iff.mpr hu) v (hpermN.mem_iff.mpr hv)
  have hdperm : (dedupByLower (normElems y)).Perm (dedupByLower (normElems x)) := by
    rw [List.perm_ext_iff_of_nodup (nodup_dedupByLower _) (nodup_dedupByLower _)]
    intro a
    constructor
    · intro ha
      exact mem_dedupByLower_of_unique _ hux a
        (hpermN.mem_iff.mpr (dedupByLower_subset _ ha))
    · intro ha
      exact mem_dedupByLower_of_unique _ huy a
        (hpermN.mem_iff.mp (dedupByLower_subset _ ha))
  rw [uniqueNormalized_eq x, uniqueNormalized_eq y]
  refine List.eq_of_perm_of_sorted ?_
    (List.sorted_insertionSort _ _) (List.sorted_insertionSort _ _)
  exact ((List.perm_insertionSort _ _).trans hdperm).trans
    (List.perm_insertionSort _ _).symm

/-- Witness for C8's amended theorem: a permutation of case-consistent
candidates normalizes identically. -/
theorem uniqueNormalized_perm_invariant_witness :
    uniqueNormalized ["b.com", "A.com"] = uniqueNormalized ["A.com", "b.com"] :=
  uniqueNormalized_perm_invariant ["A.com", "b.com"] ["b.com", "A.com"]
    (List.Perm.swap "b.com" "A.com" []) (by decide)

/-- C3: the paginated runner requests pages in order starting at 1 and
stops exactly at the first of: `max_pages` requests issued (with always
full pages it requests exactly pages `1..max_pages`); a page with zero
matches (stop, no error, that page still requested); or a page with fewer
matches than the nominal full-page size 100, whose candidates are still
extracted before stopping with no error — the next page is never
requested (the requested-page list is exactly `1..n`). -/
theorem searchShodanPaginated_termination :
    (∀ (api : Nat → PageResp) (maxPages : Nat),
      (∀ p, 1 ≤ p → p ≤ maxPages → ∃ ms, api p = .matches ms ∧ ms.length = 100) →
      searchShodanPaginated api maxPages =
        (pagesExtract api 1 maxPages, none, List.range' 1 maxPages)) ∧
    (∀ (api : Nat → PageResp) (maxPages n : Nat), 1 ≤ n → n ≤ maxPages →
      (∀ p, 1 ≤ p → p < n → ∃ ms, api p = .matches ms ∧ ms.length = 100) →
      api n = .matches [] →
      searchShodanPaginated api maxPages =
        (pagesExtract api 1 (n - 1), none, List.range' 1 n)) ∧
    (∀ (api : Nat → PageResp) (maxPages n : Nat) (ms : List Json),
      1 ≤ n → n ≤ maxPages →
      (∀ p, 1 ≤ p → p < n → ∃ ms2, api p = .matches ms2 ∧ ms2.length = 100) →
      api n = .matches ms → ms.length ≠ 0 → ms.length < 100 →
      searchShodanPaginated api maxPages =
        (pagesExtract api 1 (n - 1) ++ ms.flatMap extractFromMatch, none,
         List.range' 1 n)) := by
  refine ⟨?_, ?_, ?_⟩
  · intro api maxPages hfull
    rw [searchShodanPaginated,
      searchAux_run_full api maxPages maxPages 1 [] [] (by omega)
        (fun p hp1 hp2 => hfull p hp1 (by omega)),
      searchAux_stop api maxPages (1 + maxPages) _ _ (by omega)]
    simp
  · intro api maxPages n h1 h2 hfull hempty
    rw [search_reach api maxPages n h1 h2 hfull,
      searchAux_empty api maxPages n _ _ h2 hempty,
      range'_one_append_last n h1]
  · intro api maxPages n ms h1 h2 hfull hms h0 hlt
    rw [search_reach api maxPages n h1 h2 hfull,
      searchAux_short api maxPages n _ _ ms h2 hms h0 hlt,
      range'_one_append_last n h1]

/-- Witness for C3: an always-full stub with `max_pages = 3` requests
exactly pages 1, 2, 3; a stub short on page 2 stops after page 2 without
requesting page 3, extracting the short page's candidates. -/
theorem searchShodanPaginated_termination_witness :
    (searchShodanPaginated
        (fun _ => PageResp.matches (List.replicate 100 (Json.obj []))) 3).2.2 =
      [1, 2, 3] ∧
    searchShodanPaginated
        (fun p => if p = 2
          then PageResp.matches
            [Json.obj [("hostnames", Json.arr [Json.str "s2.example.com"])]]
          else PageResp.matches (List.replicate 100 (Json.obj []))) 5 =
      (["s2.example.com"], none, [1, 2]) := by
  constructor
  · rw [searchShodanPaginated_termination.1
      (fun _ => PageResp.matches (List.replicate 100 (Json.obj []))) 3
      (fun p hp1 hp2 => ⟨List.replicate 100 (Json.obj []), rfl, by simp⟩)]
    rfl
  · rw [searchShodanPaginated_termination.2.2
      (fun p => if p = 2
        then PageResp.matches
          [Json.obj [("hostnames", Json.arr [Json.str "s2.example.com"])]]
        else PageResp.matches (List.replicate 100 (Json.obj []))) 5 2
      [Json.obj [("hostnames", Json.arr [Json.str "s2.example.com"])]]
      (by omega) (by omega)
      (by
        intro p hp1 hp2
        have hp : p = 1 := by omega
        subst hp
        exact ⟨List.replicate 100 (Json.obj []), rfl, by simp⟩)
      rfl (by simp) (by simp)]
    rfl

/-- C5: on a non-200 status, a transport failure or a JSON parse failure at
page `n` (after full pages `1..n-1`), the runner returns a non-`none` error
describing the failure together with the candidates of pages `1..n-1`
(partial results preserved), and requests no page beyond `n`. -/
theorem searchShodanPaginated_error_preserves :
    ∀ (api : Nat → PageResp) (maxPages n : Nat), 1 ≤ n → n ≤ maxPages →
      (∀ p, 1 ≤ p → p < n → ∃ ms, api p = .matches ms ∧ ms.length = 100) →
      (∀ msg, api n = .transportErr msg →
        searchShodanPaginated api maxPages =
          (pagesExtract api 1 (n - 1), some (.request n msg),
           List.range' 1 n)) ∧
      (∀ code body, api n = .httpErr code body →
        searchShodanPaginated api maxPages =
          (pagesExtract api 1 (n - 1), some (.status code body),
           List.range' 1 n)) ∧
      (∀ msg, api n = .parseErr msg →
        searchShodanPaginated api maxPages =
          (pagesExtract api 1 (n - 1), some (.unmarshal n msg),
           List.range' 1 n)) := by
  intro api maxPages n h1 h2 hfull
  refine ⟨?_, ?_, ?_⟩
  · intro msg ha
    rw [search_reach api maxPages n h1 h2 hfull,
      searchAux_transport api maxPages n _ _ msg h2 ha,
      range'_one_append_last n h1]
  · intro code body ha
    rw [search_reach api maxPages n h1 h2 hfull,
      searchAux_http api maxPages n _ _ code body h2 ha,
      range'_one_append_last n h1]
  · intro msg ha
    rw [search_reach api maxPages n h1 h2 hfull,
      searchAux_parse api maxPages n _ _ msg h2 ha,
      range'_one_append_last n h1]

/-- Witness for C5: a 503 on page 2 after a full page 1 aborts the query
with a status error, keeps page 1's candidates, and never requests
page 3. -/
theorem searchShodanPaginated_error_preserves_witness :
    searchShodanPaginated
        (fun p => if p = 2 then PageResp.httpErr 503 "busy"
          else PageResp.matches
            (List.replicate 100
              (Json.obj [("hostnames", Json.arr [Json.str "p1.example.com"])]))) 5 =
      (List.replicate 100 "p1.example.com",
       some (.status 503 "busy"), [1, 2]) := by
  rw [(searchShodanPaginated_error_preserves
      (fun p => if p = 2 then PageResp.httpErr 503 "busy"
        else PageResp.matches
          (List.replicate 100
            (Json.obj [("hostnames", Json.arr [Json.str "p1.example.com"])]))) 5 2
      (by omega) (by omega)
      (by
        intro p hp1 hp2
        have hp : p = 1 := by omega
        subst hp
        exact ⟨_, rfl, by simp⟩)).2.1 503 "busy" rfl]
  rfl

/-- C4: query failures are isolated in the fan-out: the accumulated
result set is exactly the concatenation of the candidates of the queries
whose run returned no error (so a failing query cancels no sibling), the
recorded failures are exactly one `(query, error)` outcome per failed
query, every successful query's candidates and the successful DNS fetch's
hostnames are in the accumulated collection. -/
theorem fanout_isolated :
    ∀ (runQ : String → List String × Option SearchErr) (queries : List String)
      (dns : List String × Option DnsErr),
      ((runQueries runQ queries).1 =
        (queries.filter fun q => ((runQ q).2).isNone).flatMap fun q => (runQ q).1) ∧
      ((runQueries runQ queries).2 =
        queries.filterMap fun q => ((runQ q).2).map fun e => (q, e)) ∧
      (∀ q ∈ queries, (runQ q).2 = none → ∀ s ∈ (runQ q).1,
        s ∈ collectAll runQ queries dns) ∧
      (dns.2 = none → ∀ s ∈ dns.1, s ∈ collectAll runQ queries dns) := by
  intro runQ queries dns
  have h := runQueries_eq runQ queries
  refine ⟨by rw [h], by rw [h], ?_, ?_⟩
  · intro q hq hok s hs
    rw [collectAll]
    refine List.mem_append.mpr (Or.inl ?_)
    rw [h]
    exact List.mem_flatMap.mpr
      ⟨q, List.mem_filter.mpr ⟨hq, by simp [hok]⟩, hs⟩
  · intro hdns s hs
    rw [collectAll, hdns]
    exact List.mem_append.mpr (Or.inr hs)

/-- Witness for C4: with five queries of which query 2 fails with a non-200
status, a candidate of query 1 and the DNS fetch's hostname are still
collected. -/
theorem fanout_isolated_witness :
    "h.q1" ∈ collectAll
      (fun q => if q = "q2" then ([], some (.status 503 "busy"))
        else (["h." ++ q], none))
      ["q1", "q2", "q3", "q4", "q5"] (["d.example.com"], none) ∧
    "d.example.com" ∈ collectAll
      (fun q => if q = "q2" then ([], some (.status 503 "busy"))
        else (["h." ++ q], none))
      ["q1", "q2", "q3", "q4", "q5"] (["d.example.com"], none) :=
  ⟨(fanout_isolated _ _ _).2.2.1 "q1" (by decide) rfl "h.q1" (by decide),
   (fanout_isolated _ _ _).2.2.2 rfl "d.example.com" (by decide)⟩

/-- C9: the DNS-subdomain fetcher, on a successful response whose
`subdomains` field is an array, returns `label ++ "." ++ domain` for each
string label (non-strings skipped) with no error; and a DNS fetch failure
does not abort the run — the normalized output is computed from the
candidates already collected from the search queries alone. -/
theorem getDNSSubs_spec :
    (∀ (raw : Json) (domain : String) (subs : List Json),
      raw.lookup "subdomains" = some (.arr subs) →
      getDNSSubs (.ok raw) domain =
        ((subs.filterMap fun s =>
            match s with
            | Json.str label => some label
            | _ => none).map fun label => label ++ "." ++ domain, none)) ∧
    (∀ (runQ : String → List String × Option SearchErr) (queries : List String)
      (dns : List String × Option DnsErr) (e : DnsErr), dns.2 = some e →
      mainNormalized runQ queries dns =
        uniqueNormalized (runQueries runQ queries).1) := by
  constructor
  · intro raw domain subs h
    simp only [getDNSSubs, h, List.map_filterMap]
    have hfun : (fun s =>
        match s with
        | Json.str label => some (label ++ "." ++ domain)
        | _ => none) =
      fun x => Option.map (fun label => label ++ "." ++ domain)
        (match x with
         | Json.str label => some label
         | _ => none) := by
      funext s
      cases s <;> rfl
    rw [hfun]
  · intro runQ queries dns e hdns
    rw [mainNormalized, collectAll, hdns]
    simp

/-- Witness for C9: a concrete subdomains array with a non-string entry,
and a failing DNS fetch that leaves the query results intact. -/
theorem getDNSSubs_spec_witness :
    getDNSSubs
        (.ok (Json.obj [("subdomains",
          Json.arr [Json.str "www", Json.num 1, Json.str "mail"])])) "ex.com" =
      (["www.ex.com", "mail.ex.com"], none) ∧
    mainNormalized (fun _ => (["a.example.com"], none)) ["q"]
        ([], some (.status 404 "not found")) =
      uniqueNormalized ["a.example.com"] := by
  constructor
  · rw [getDNSSubs_spec.1
      (Json.obj [("subdomains",
        Json.arr [Json.str "www", Json.num 1, Json.str "mail"])])
      "ex.com" [Json.str "www", Json.num 1, Json.str "mail"] rfl]
    rfl
  · rw [getDNSSubs_spec.2 (fun _ => (["a.example.com"], none)) ["q"]
      ([], some (.status 404 "not found")) (.status 404 "not found") rfl]
    rfl
